import Mathlib

/-!
Verification of the ebiten draw-command batching and restoration core.

The definitions below are a shallow embedding of the Go sources:

- the command queue (`commandQueue`, `doEnqueueDrawImageCommand`,
  `EnqueueDrawImageCommand`, `Flush`) and the draw-command merge test
  (`drawImageCommand.CanMerge`) from the graphics package;
- the vertex builder (`Image.vertices`) and the restorable image's
  staleness machinery (`Image.makeStale`, `Image.dependsOn`,
  `Image.makeStaleIfDependingOn`, `Image.hasDependency`) from the
  restorable package;
- the image registry (`images.restore`, `images.resetPixelsIfDependingOn`)
  and the public image wrapper (`Image.Dispose`, `Image.DrawImage`,
  `Image.ReplacePixels`, `Image.At`) from the ebiten package.

Pointers are modelled as natural-number identities, Go float32 values as
rationals, Go panics as `Option.none`, and the uint16 index elements with
explicit reduction modulo 2 ^ 16.  The hardware index-buffer capacity
`indicesNum` is an implementation constant whose definition is not among
the given files, so every queue operation is parametrised by it (written
`N` below).
-/

namespace Ebiten

/-- Pointer identity of a graphics image (Go: a pointer to `graphics.Image`). -/
abbrev ImageId := Nat

/-- Opaque color transform (Go: `affine.ColorM`, compared by the value
equality `ColorM.Equals`); consumed as an opaque value type. -/
abbrev ColorM := Nat

/-- Opaque composite (blend) mode (Go: `opengl.CompositeMode`, compared with `==`). -/
abbrev CompositeMode := Nat

/-- Opaque filter mode (Go: `graphics.Filter`, compared with `==`). -/
abbrev Filter := Nat

/-- A color with 8-bit premultiplied RGBA channels (Go: `color.RGBA`). -/
structure RGBA where
  r : Nat
  g : Nat
  b : Nat
  a : Nat
deriving DecidableEq, Repr

/-- The queued commands (Go: the implementations of the `command`
interface in the graphics package: `drawImageCommand`,
`replacePixelsCommand`, `disposeCommand`, `newImageCommand` and
`newScreenFramebufferImageCommand`).  Only `drawImage` carries vertex and
index counts; the other kinds report zero for both. -/
inductive Cmd where
  | drawImage (dst src : ImageId) (nvertices nindices : Nat)
      (color : ColorM) (mode : CompositeMode) (filter : Filter)
  | replacePixels (dst : ImageId)
  | dispose (target : ImageId)
  | newImage (width height : Nat)
  | newScreenFramebufferImage (width height : Nat)
deriving DecidableEq, Repr

namespace Cmd

/-- Go: `NumVertices`; zero for every kind except `drawImageCommand`. -/
def NumVertices : Cmd → Nat
  | .drawImage _ _ nv _ _ _ _ => nv
  | _ => 0

/-- Go: `NumIndices`; zero for every kind except `drawImageCommand`. -/
def NumIndices : Cmd → Nat
  | .drawImage _ _ _ ni _ _ _ => ni
  | _ => 0

/-- Go: `AddNumVertices`; a no-op for every kind except `drawImageCommand`. -/
def AddNumVertices : Cmd → Nat → Cmd
  | .drawImage dst src nv ni col m f, n => .drawImage dst src (nv + n) ni col m f
  | c, _ => c

/-- Go: `AddNumIndices`; a no-op for every kind except `drawImageCommand`. -/
def AddNumIndices : Cmd → Nat → Cmd
  | .drawImage dst src nv ni col m f, n => .drawImage dst src nv (ni + n) col m f
  | c, _ => c

/-- Go: `CanMerge`.  For a `drawImageCommand` it compares the destination
and source image identities, the color transform by value equality, the
composite mode and the filter; every other command kind answers `false`. -/
def CanMerge (c : Cmd) (dst src : ImageId) (color : ColorM)
    (mode : CompositeMode) (filter : Filter) : Bool :=
  match c with
  | .drawImage d s _ _ col m f =>
    if d ≠ dst then false
    else if s ≠ src then false
    else if col ≠ color then false
    else if m ≠ mode then false
    else if f ≠ filter then false
    else true
  | _ => false

end Cmd

/-- The command queue state (Go: `commandQueue`).  `indices` models the
valid first `nindices` entries of the Go backing slice; float32 vertex
data is modelled over the rationals. -/
structure commandQueue where
  commands : List Cmd
  vertices : List ℚ
  indices : List Nat
  nindices : Nat
  tmpNumIndices : Nat
  nextIndex : Nat
deriving DecidableEq, Repr

/-- The queue in its initial state (Go: `theCommandQueue` before use, and
the state `Flush` resets to). -/
def emptyQueue : commandQueue :=
  { commands := [], vertices := [], indices := [], nindices := 0,
    tmpNumIndices := 0, nextIndex := 0 }

/-- Go: `commandQueue.appendVertices`. -/
def appendVertices (q : commandQueue) (vs : List ℚ) : commandQueue :=
  { q with vertices := q.vertices ++ vs }

/-- Go: `commandQueue.appendIndices`.  Each stored element is
`indices[i] + offset` computed in uint16 arithmetic, hence the reduction
modulo 2 ^ 16; `nindices` advances by the number of appended elements. -/
def appendIndices (q : commandQueue) (idx : List Nat) (offset : Nat) : commandQueue :=
  { q with
    indices := q.indices ++ idx.map (fun i => (i % 65536 + offset % 65536) % 65536),
    nindices := q.nindices + idx.length }

/-- Go: `commandQueue.doEnqueueDrawImageCommand` with hardware limit `N`
(the constant `indicesNum`).  `none` models the panic on too many
indices.  Unless a buffer-boundary split forces a new command, the new
draw is merged into the last queued command when `CanMerge` accepts it;
otherwise a fresh `drawImageCommand` is appended. -/
def doEnqueueDrawImageCommand (N : Nat) (q : commandQueue) (dst src : ImageId)
    (nvertices nindices : Nat) (color : ColorM) (mode : CompositeMode)
    (filter : Filter) (forceNewCommand : Bool) : Option commandQueue :=
  if nindices > N then none
  else
    match forceNewCommand, q.commands.getLast? with
    | false, some last =>
      if last.CanMerge dst src color mode filter then
        some { q with commands :=
          q.commands.dropLast ++ [(last.AddNumVertices nvertices).AddNumIndices nindices] }
      else
        some { q with commands :=
          q.commands ++ [Cmd.drawImage dst src nvertices nindices color mode filter] }
    | _, _ =>
      some { q with commands :=
        q.commands ++ [Cmd.drawImage dst src nvertices nindices color mode filter] }

/-- Size of one vertex in floats (Go: `VertexSizeInFloats`).  The array
buffer layout (`theArrayBufferLayout`, defined outside the given files)
has a 2-float position, two 2-float texture-coordinate pairs and a
4-float tint, exactly the ten floats per vertex that the vertex builder
writes. -/
def VertexSizeInFloats : Nat := 10

/-- The tint-overwriting loop at the head of Go
`commandQueue.EnqueueDrawImageCommand`: walking the flat vertex data in
strides of `VertexSizeInFloats`, every float from position 6 to the end
of its vertex is set to `1.0`.  `none` models the slice-bounds panic the
Go loop hits when the data is not a whole number of vertices. -/
def overwriteTint : List ℚ → Option (List ℚ)
  | [] => some []
  | v0 :: v1 :: v2 :: v3 :: v4 :: v5 :: _ :: _ :: _ :: _ :: rest =>
    (overwriteTint rest).map
      (fun tail => v0 :: v1 :: v2 :: v3 :: v4 :: v5 :: 1 :: 1 :: 1 :: 1 :: tail)
  | _ => none

/-- The tail of Go `commandQueue.EnqueueDrawImageCommand` after the
split decision: append the (tint-overwritten) vertex data, append the
index data offset by the running vertex index in uint16 arithmetic,
advance `nextIndex` by the number of appended vertices and
`tmpNumIndices` by the number of appended indices, and hand the draw to
`doEnqueueDrawImageCommand` with the split flag as `forceNewCommand`. -/
def enqueueCore (N : Nat) (q : commandQueue) (dst src : ImageId)
    (verts : List ℚ) (idx : List Nat) (color : ColorM) (mode : CompositeMode)
    (filter : Filter) (forceNewCommand : Bool) : Option commandQueue :=
  let q1 := appendVertices q verts
  let q2 := appendIndices q1 idx (q1.nextIndex % 65536)
  let q3 := { q2 with
    nextIndex := q2.nextIndex + verts.length / VertexSizeInFloats,
    tmpNumIndices := q2.tmpNumIndices + idx.length }
  doEnqueueDrawImageCommand N q3 dst src verts.length idx.length color mode filter forceNewCommand

/-- Go: `commandQueue.EnqueueDrawImageCommand` with hardware limit `N`.
After the up-front panic check and the tint overwrite, a pending-index
overflow resets `tmpNumIndices` and `nextIndex` and forces a new command
across the buffer boundary; then the vertex and index data are appended
and the draw is enqueued. -/
def EnqueueDrawImageCommand (N : Nat) (q : commandQueue) (dst src : ImageId)
    (verts : List ℚ) (idx : List Nat) (color : ColorM) (mode : CompositeMode)
    (filter : Filter) : Option commandQueue :=
  if idx.length > N then none
  else
    match overwriteTint verts with
    | none => none
    | some verts =>
      if q.tmpNumIndices + idx.length > N then
        enqueueCore N { q with tmpNumIndices := 0, nextIndex := 0 }
          dst src verts idx color mode filter true
      else
        enqueueCore N q dst src verts idx color mode filter false

/-- Total index count of a list of commands. -/
def sumIndices (l : List Cmd) : Nat := (l.map Cmd.NumIndices).sum

/-- The chunk scan inside Go `commandQueue.Flush`: starting from an
already-accumulated index count `acc`, commands are taken in order while
they fit under the limit `N`; a command whose own index count exceeds `N`
panics (`none`), and the first command that would overflow the
accumulated count stops the chunk.  Returns the taken chunk and the
remaining commands. -/
def takeChunk (N : Nat) (acc : Nat) : List Cmd → Option (List Cmd × List Cmd)
  | [] => some ([], [])
  | c :: rest =>
    if c.NumIndices > N then none
    else if acc + c.NumIndices > N then some ([], c :: rest)
    else
      match takeChunk N (acc + c.NumIndices) rest with
      | none => none
      | some (a, b) => some (c :: a, b)

/-- The outer loop of Go `commandQueue.Flush`: repeatedly scan off one
chunk and execute it, until the queue is empty.  The fuel argument only
bounds the recursion; `Flush` supplies the queue length, which always
suffices because every round consumes at least the first command. -/
def flushLoop (N : Nat) : Nat → List Cmd → Option (List (List Cmd))
  | _, [] => some []
  | 0, _ :: _ => none
  | fuel + 1, c :: rest =>
    if c.NumIndices > N then none
    else
      match takeChunk N c.NumIndices rest with
      | none => none
      | some (a, b) =>
        match flushLoop N fuel b with
        | none => none
        | some chs => some ((c :: a) :: chs)

/-- Go: `commandQueue.Flush` with hardware limit `N`, observed as the
sequence of executed chunks (each chunk is uploaded in one sub-data
transfer and its commands executed in order); `none` models the panic on
a command whose own index count exceeds the limit. -/
def Flush (N : Nat) (q : commandQueue) : Option (List (List Cmd)) :=
  flushLoop N q.commands.length q.commands

/-- Greedy chunk decomposition: each chunk is non-empty, fits in the
hardware buffer, and is maximal in that appending the next remaining
command would overflow the limit — exactly the longest prefix whose
cumulative index count fits. -/
def IsGreedy (N : Nat) : List (List Cmd) → Prop
  | [] => True
  | ch :: rest =>
    ch ≠ [] ∧ sumIndices ch ≤ N ∧
      (∀ c cs, rest.flatten = c :: cs → sumIndices ch + c.NumIndices > N) ∧
      IsGreedy N rest

/-- The doubling loop in the vertex builder (Go: `for w < width { w *= 2 }`
in `Image.vertices`), with a fuel bound on the number of iterations. -/
def pow2Loop (width : Nat) : Nat → Nat → Nat
  | 0, w => w
  | fuel + 1, w => if w < width then pow2Loop width fuel (2 * w) else w

/-- The power-of-two dimension the vertex builder normalizes texture
coordinates against: starting from 1 the size is doubled until it reaches
the logical size (`width` iterations of fuel always suffice since the
value at least doubles each step). -/
def nextPowerOf2 (width : Nat) : Nat := pow2Loop width width 1

/-- Go: `Image.vertices` from the restorable package, for an image of
logical size `width` by `height`.  A degenerate source rectangle yields
no vertices.  Otherwise the four corners of the rectangle are emitted in
the order (x0,y0), (x1,y0), (x0,y1), (x1,y1), each as ten floats:
transformed position, its own texture coordinates, the diagonally
opposite corner's texture coordinates, and the four tint channels.  The
geometry transform `geo` (Go: `geo.Apply32`) is consumed as an opaque
function; a `none` tint defaults to opaque white.  The ring buffer the Go
code writes into is modelled by its value contents. -/
def vertices (width height : Nat) (sx0 sy0 sx1 sy1 : Int) (tint : Option RGBA)
    (geo : ℚ → ℚ → ℚ × ℚ) : List ℚ :=
  if sx0 ≥ sx1 ∨ sy0 ≥ sy1 then []
  else if sx1 ≤ 0 ∨ sy1 ≤ 0 then []
  else
    let x1 : ℚ := ((sx1 - sx0 : Int) : ℚ)
    let y1 : ℚ := ((sy1 - sy0 : Int) : ℚ)
    let t := tint.getD ⟨255, 255, 255, 255⟩
    let r : ℚ := (t.r : ℚ) / 255
    let g : ℚ := (t.g : ℚ) / 255
    let b : ℚ := (t.b : ℚ) / 255
    let a : ℚ := (t.a : ℚ) / 255
    let wf : ℚ := (nextPowerOf2 width : ℚ)
    let hf : ℚ := (nextPowerOf2 height : ℚ)
    let u0 : ℚ := (sx0 : ℚ) / wf
    let v0 : ℚ := (sy0 : ℚ) / hf
    let u1 : ℚ := (sx1 : ℚ) / wf
    let v1 : ℚ := (sy1 : ℚ) / hf
    let p00 := geo 0 0
    let p10 := geo x1 0
    let p01 := geo 0 y1
    let p11 := geo x1 y1
    [p00.1, p00.2, u0, v0, u1, v1, r, g, b, a,
     p10.1, p10.2, u1, v0, u0, v1, r, g, b, a,
     p01.1, p01.2, u0, v1, u1, v0, r, g, b, a,
     p11.1, p11.2, u1, v1, u0, v0, r, g, b, a]

/-- The opaque-white tint (Go: `color.RGBA{255, 255, 255, 255}`, the
default tint of the vertex builder). -/
def whiteRGBA : RGBA := ⟨255, 255, 255, 255⟩

/-- The draw path from the vertex builder to the command queue: the
builder runs first and an empty result returns nil before anything is
enqueued.  Both draw paths in the sources guard this way — the public
`Image.DrawImage` returns before its self-draw panic check and before
touching the restorable layer when the vertex list is empty, and
`restorable.Image.DrawImage` returns before any effect when the builder
yields nil — after which the computed vertices reach the command queue
as one quad draw. -/
def DrawImageOp (N : Nat) (q : commandQueue) (width height : Nat)
    (sx0 sy0 sx1 sy1 : Int) (tint : Option RGBA) (geo : ℚ → ℚ → ℚ × ℚ)
    (dst src : ImageId) (idx : List Nat) (color : ColorM)
    (mode : CompositeMode) (filter : Filter) : Option commandQueue :=
  let vs := vertices width height sx0 sy0 sx1 sy1 tint geo
  if vs.isEmpty then some q
  else EnqueueDrawImageCommand N q dst src vs idx color mode filter

/-- A history entry of a restorable image (Go: `drawImageHistoryItem`):
the source image's pointer identity, the vertex data, the color
transform, the tint pointer identity, the composite mode and the
filter. -/
structure drawImageHistoryItem where
  image : ImageId
  vertices : List ℚ
  colorm : ColorM
  tint : Nat
  mode : CompositeMode
  filter : Filter
deriving DecidableEq, Repr

/-- A live restorable image as the invalidation scan sees it (Go:
`restorable.Image`): its pointer identity, the optional CPU pixel
cache `basePixels`, the draw history, and the staleness flag. -/
structure RImage where
  rid : Nat
  basePixels : Option (List Nat)
  drawImageHistory : List drawImageHistoryItem
  stale : Bool
deriving DecidableEq, Repr

/-- Go: `Image.makeStale` — drops the pixel cache and the whole draw
history and raises the stale flag. -/
def RImage.makeStale (i : RImage) : RImage :=
  { i with basePixels := none, drawImageHistory := [], stale := true }

/-- Go: `Image.dependsOn` — whether some history entry's source image
is the target. -/
def RImage.dependsOn (i : RImage) (target : ImageId) : Bool :=
  i.drawImageHistory.any (fun c => c.image == target)

/-- Go: `Image.makeStaleIfDependingOn` — an already-stale image is
returned unchanged; otherwise the image goes stale (via `makeStale`)
exactly when it depends on the target. -/
def RImage.makeStaleIfDependingOn (i : RImage) (target : ImageId) : RImage :=
  if i.stale then i
  else if i.dependsOn target then i.makeStale else i

/-- The registry of live images with the one-entry invalidation memo
(Go: the `images` struct; `lastChecked` holds the `restorable.Image`
pointer of the last invalidation target, `none` standing for Go nil).
The live set, a Go map, is modelled as a list. -/
structure imagesReg where
  images : List RImage
  lastChecked : Option Nat
deriving DecidableEq, Repr

/-- Go: `images.resetPixelsIfDependingOn`.  The argument is the target
wrapper's `restorable` field (`none` when the target is disposed).  A
memo hit returns at once; otherwise the memo is replaced, a disposed
target returns without scanning, and a live target scans every live
image with `makeStaleIfDependingOn`.  The second component counts the
images visited by the scan loop, instrumenting how much of the live set
one call walks. -/
def resetPixelsIfDependingOn (reg : imagesReg) (target : Option Nat) :
    imagesReg × Nat :=
  if reg.lastChecked = target then (reg, 0)
  else
    let reg1 : imagesReg := { reg with lastChecked := target }
    match target with
    | none => (reg1, 0)
    | some t =>
      ({ reg1 with
          images := reg1.images.map (fun img => img.makeStaleIfDependingOn t) },
        reg1.images.length)

/-- A live image as `images.restore` sees it: its identity and whether
its history holds at least one dependency.  `hasDependency` consumes
the answer of `restorable.Image.hasDependency` (false for a stale
image, else whether the draw history is non-empty) as an opaque flag:
the ordering theorem holds for every assignment of the flag, so the
predicate's internals play no part in it. -/
structure RestImage where
  rid : Nat
  hasDependency : Bool
deriving DecidableEq, Repr

/-- Go: the loop in `images.restore` that partitions the live set into
images with and without a history dependency, appending each image to
one of the two lists in iteration order. -/
def partitionByDependency (live : List RestImage) :
    List RestImage × List RestImage :=
  live.foldl
    (fun acc img =>
      if img.hasDependency then (acc.1 ++ [img], acc.2)
      else (acc.1, acc.2 ++ [img]))
    ([], [])

/-- Go: `images.restore`, observed as the order in which the per-image
restore is invoked on the live images: first every image without a
dependency, then every image with one.  (An error from a single restore
aborts the remaining calls but never reorders the ones made.) -/
def restoreOrder (live : List RestImage) : List RestImage :=
  (partitionByDependency live).2 ++ (partitionByDependency live).1

/-- A GPU-side effect of a public image operation, as issued through the
restorable layer and the command queue. -/
inductive GpuEff where
  | release (id : Nat)
  | draw (dst src : Nat)
  | upload (id : Nat)
deriving DecidableEq, Repr

/-- The restorable image a public wrapper owns: its identity and logical
size. -/
structure RState where
  rid : Nat
  width : Nat
  height : Nat
deriving DecidableEq, Repr

/-- The public image wrapper (Go: `ebiten.Image`); `restorable` becomes
`none` when the image is disposed. -/
structure EImage where
  restorable : Option RState
deriving DecidableEq, Repr

/-- Go: the public `Image.Dispose`.  A disposed image returns nil at
once with no effect; otherwise `restorable.Image.Dispose` runs —
releasing the GPU handle through the underlying graphics image,
clearing the cached state and the finalizer, and removing the image
from the registry, observed here as the single release effect — and the
wrapper's `restorable` field is cleared, so no later call can reach the
release again. -/
def EImage.Dispose (img : EImage) : EImage × List GpuEff :=
  match img.restorable with
  | none => (img, [])
  | some r => (⟨none⟩, [GpuEff.release r.rid])

/-- Go: the public `Image.DrawImage` observed through its effects.  A
disposed receiver returns nil at once with no effect (the nil check is
the first statement); a live receiver issues the draw through
`restorable.Image.DrawImage`, observed here as one draw effect. -/
def EImage.DrawImageEff (img : EImage) (srcId : Nat) : EImage × List GpuEff :=
  match img.restorable with
  | none => (img, [])
  | some r => (img, [GpuEff.draw r.rid srcId])

/-- Go: the public `Image.ReplacePixels`.  A disposed image returns nil
at once with no effect (the length check comes after the disposed
check, so even a wrong-sized buffer is ignored); a live image panics
(`none`) unless the buffer holds `4 * width * height` bytes, and
otherwise uploads immediately through `restorable.Image.ReplacePixels`,
observed here as one upload effect. -/
def EImage.ReplacePixelsOp (img : EImage) (p : List Nat) :
    Option (EImage × List GpuEff) :=
  match img.restorable with
  | none => some (img, [])
  | some r =>
    if p.length ≠ 4 * r.width * r.height then none
    else some (img, [GpuEff.upload r.rid])

/-- Go: `Image.At`.  A disposed image answers `color.Transparent`; a
live image reads the pixel through the restorable layer, consumed here
as the opaque readback `f`. -/
def EImage.AtColor (img : EImage) (f : RState → RGBA) : RGBA :=
  match img.restorable with
  | none => ⟨0, 0, 0, 0⟩
  | some r => f r

/-- A public operation invoked on one image. -/
inductive ImgOp where
  | dispose
  | drawImage (srcId : Nat)
  | replacePixels (p : List Nat)
deriving DecidableEq, Repr

/-- One step of the public API on one image, with its effects. -/
def stepOp (img : EImage) : ImgOp → Option (EImage × List GpuEff)
  | .dispose => some img.Dispose
  | .drawImage s => some (img.DrawImageEff s)
  | .replacePixels p => img.ReplacePixelsOp p

/-- Run a sequence of public operations on one image, accumulating the
GPU effects in order. -/
def runOps (img : EImage) : List ImgOp → Option (EImage × List GpuEff)
  | [] => some (img, [])
  | op :: ops =>
    match stepOp img op with
    | none => none
    | some (img1, effs) =>
      match runOps img1 ops with
      | none => none
      | some (img2, effs2) => some (img2, effs ++ effs2)

/-- How many times a list of effects releases a GPU handle. -/
def releaseCount (effs : List GpuEff) : Nat :=
  (effs.filter fun e => match e with | GpuEff.release _ => true | _ => false).length

/-- Repeated enqueuing of one and the same draw (the N-fold immediate
succession of `EnqueueDrawImageCommand` calls with a fixed material
tuple). -/
def enqueueRep (N : Nat) (dst src : ImageId) (vs : List ℚ) (idx : List Nat)
    (color : ColorM) (mode : CompositeMode) (filter : Filter) :
    Nat → commandQueue → Option commandQueue
  | 0, q => some q
  | n + 1, q =>
    match EnqueueDrawImageCommand N q dst src vs idx color mode filter with
    | none => none
    | some q1 => enqueueRep N dst src vs idx color mode filter n q1

/-! ### Supporting lemmas -/

theorem sumIndices_nil : sumIndices [] = 0 := rfl

theorem sumIndices_cons (c : Cmd) (l : List Cmd) :
    sumIndices (c :: l) = c.NumIndices + sumIndices l := by
  simp [sumIndices]

theorem sumIndices_append (l1 l2 : List Cmd) :
    sumIndices (l1 ++ l2) = sumIndices l1 + sumIndices l2 := by
  simp [sumIndices]

theorem sumIndices_flatten (ls : List (List Cmd)) :
    sumIndices ls.flatten = (ls.map sumIndices).sum := by
  induction ls with
  | nil => rfl
  | cons l ls ih => simp [sumIndices_append, ih]

theorem overwriteTint_length (vs ovs : List ℚ) (h : overwriteTint vs = some ovs) :
    ovs.length = vs.length := by
  induction vs using overwriteTint.induct generalizing ovs with
  | case1 =>
    simp only [overwriteTint, Option.some.injEq] at h
    simp [← h]
  | case2 v0 v1 v2 v3 v4 v5 w0 w1 w2 w3 rest ih =>
    simp only [overwriteTint, Option.map_eq_some'] at h
    obtain ⟨tail, htail, hh⟩ := h
    simp [← hh, ih tail htail]
  | case3 t h1 h2 =>
    rcases t with _ | ⟨a0, _ | ⟨a1, _ | ⟨a2, _ | ⟨a3, _ | ⟨a4, _ | ⟨a5, _ |
      ⟨a6, _ | ⟨a7, _ | ⟨a8, _ | ⟨a9, t⟩⟩⟩⟩⟩⟩⟩⟩⟩⟩
    · exact absurd rfl h1
    · simp [overwriteTint] at h
    · simp [overwriteTint] at h
    · simp [overwriteTint] at h
    · simp [overwriteTint] at h
    · simp [overwriteTint] at h
    · simp [overwriteTint] at h
    · simp [overwriteTint] at h
    · simp [overwriteTint] at h
    · simp [overwriteTint] at h
    · exact absurd rfl (h2 a0 a1 a2 a3 a4 a5 a6 a7 a8 a9 t)

theorem takeChunk_join (N : Nat) (l : List Cmd) :
    ∀ acc a b, takeChunk N acc l = some (a, b) → a ++ b = l := by
  induction l with
  | nil =>
    intro acc a b h
    simp only [takeChunk, Option.some.injEq, Prod.mk.injEq] at h
    simp [← h.1, ← h.2]
  | cons c rest ih =>
    intro acc a b h
    simp only [takeChunk] at h
    split at h
    · exact absurd h (by simp)
    · split at h
      · simp only [Option.some.injEq, Prod.mk.injEq] at h
        simp [← h.1, ← h.2]
      · match htc : takeChunk N (acc + c.NumIndices) rest with
        | none => rw [htc] at h; exact absurd h (by simp)
        | some (a1, b1) =>
          rw [htc] at h
          simp only [Option.some.injEq, Prod.mk.injEq] at h
          have := ih (acc + c.NumIndices) a1 b1 htc
          rw [← h.1, ← h.2]
          simp [← this]

theorem takeChunk_sum_le (N : Nat) (l : List Cmd) :
    ∀ acc a b, acc ≤ N → takeChunk N acc l = some (a, b) →
      acc + sumIndices a ≤ N := by
  induction l with
  | nil =>
    intro acc a b hacc h
    simp only [takeChunk, Option.some.injEq, Prod.mk.injEq] at h
    simp [← h.1, sumIndices_nil, hacc]
  | cons c rest ih =>
    intro acc a b hacc h
    simp only [takeChunk] at h
    split at h
    · exact absurd h (by simp)
    · split at h
      · simp only [Option.some.injEq, Prod.mk.injEq] at h
        simp [← h.1, sumIndices_nil, hacc]
      · match htc : takeChunk N (acc + c.NumIndices) rest with
        | none => rw [htc] at h; exact absurd h (by simp)
        | some (a1, b1) =>
          rw [htc] at h
          simp only [Option.some.injEq, Prod.mk.injEq] at h
          have hle : acc + c.NumIndices ≤ N := by omega
          have := ih (acc + c.NumIndices) a1 b1 hle htc
          rw [← h.1, sumIndices_cons]
          omega

theorem takeChunk_next_gt (N : Nat) (l : List Cmd) :
    ∀ acc a b, takeChunk N acc l = some (a, b) →
      ∀ c cs, b = c :: cs → acc + sumIndices a + c.NumIndices > N := by
  induction l with
  | nil =>
    intro acc a b h c cs hb
    simp only [takeChunk, Option.some.injEq, Prod.mk.injEq] at h
    rw [← h.2] at hb
    exact absurd hb (by simp)
  | cons c0 rest ih =>
    intro acc a b h c cs hb
    simp only [takeChunk] at h
    split at h
    · exact absurd h (by simp)
    · split at h
      · simp only [Option.some.injEq, Prod.mk.injEq] at h
        rw [← h.2] at hb
        rw [← h.1, sumIndices_nil]
        cases hb
        next hgt _ => omega
      · match htc : takeChunk N (acc + c0.NumIndices) rest with
        | none => rw [htc] at h; exact absurd h (by simp)
        | some (a1, b1) =>
          rw [htc] at h
          simp only [Option.some.injEq, Prod.mk.injEq] at h
          have := ih (acc + c0.NumIndices) a1 b1 htc c cs (by rw [h.2]; exact hb)
          rw [← h.1, sumIndices_cons]
          omega

theorem takeChunk_some_of_le (N : Nat) (l : List Cmd) :
    ∀ acc, (∀ c ∈ l, c.NumIndices ≤ N) →
      ∃ a b, takeChunk N acc l = some (a, b) := by
  induction l with
  | nil => intro acc _; exact ⟨[], [], rfl⟩
  | cons c rest ih =>
    intro acc h
    have hc : c.NumIndices ≤ N := h c (List.mem_cons_self c rest)
    simp only [takeChunk]
    rw [if_neg (by omega)]
    by_cases hover : acc + c.NumIndices > N
    · rw [if_pos hover]
      exact ⟨[], c :: rest, rfl⟩
    · rw [if_neg hover]
      obtain ⟨a1, b1, htc⟩ := ih (acc + c.NumIndices)
        (fun x hx => h x (List.mem_cons_of_mem c hx))
      rw [htc]
      exact ⟨c :: a1, b1, rfl⟩

theorem takeChunk_oversize_mem (N : Nat) (l : List Cmd) :
    ∀ acc a b, takeChunk N acc l = some (a, b) →
      ∀ x ∈ l, x.NumIndices > N → x ∈ b := by
  induction l with
  | nil => intro _ _ _ _ x hx; exact absurd hx (by simp)
  | cons c rest ih =>
    intro acc a b h x hx hxN
    simp only [takeChunk] at h
    split at h
    · exact absurd h (by simp)
    · next hcle =>
      have hxc : x ≠ c := by
        intro he
        rw [he] at hxN
        omega
      have hxrest : x ∈ rest := by
        rcases List.mem_cons.mp hx with h1 | h1
        · exact absurd h1 hxc
        · exact h1
      split at h
      · simp only [Option.some.injEq, Prod.mk.injEq] at h
        rw [← h.2]
        exact List.mem_cons_of_mem c hxrest
      · match htc : takeChunk N (acc + c.NumIndices) rest with
        | none => rw [htc] at h; exact absurd h (by simp)
        | some (a1, b1) =>
          rw [htc] at h
          simp only [Option.some.injEq, Prod.mk.injEq] at h
          rw [← h.2]
          exact ih (acc + c.NumIndices) a1 b1 htc x hxrest hxN

theorem IsGreedy_sum_le (N : Nat) (chs : List (List Cmd)) (h : IsGreedy N chs) :
    ∀ ch ∈ chs, sumIndices ch ≤ N := by
  induction chs with
  | nil => intro ch hch; exact absurd hch (by simp)
  | cons c rest ih =>
    intro ch hch
    obtain ⟨_, hle, _, hrest⟩ := h
    rcases List.mem_cons.mp hch with h1 | h1
    · rw [h1]; exact hle
    · exact ih hrest ch h1

theorem flushLoop_spec (N : Nat) :
    ∀ fuel cmds, cmds.length ≤ fuel → (∀ c ∈ cmds, c.NumIndices ≤ N) →
      ∃ chs, flushLoop N fuel cmds = some chs ∧ chs.flatten = cmds ∧
        IsGreedy N chs := by
  intro fuel
  induction fuel with
  | zero =>
    intro cmds hlen _
    match cmds with
    | [] => exact ⟨[], rfl, rfl, trivial⟩
    | c :: rest => simp at hlen
  | succ n ih =>
    intro cmds hlen h
    match cmds with
    | [] => exact ⟨[], rfl, rfl, trivial⟩
    | c :: rest =>
      have hc : c.NumIndices ≤ N := h c (List.mem_cons_self c rest)
      obtain ⟨a, b, htc⟩ := takeChunk_some_of_le N rest c.NumIndices
        (fun x hx => h x (List.mem_cons_of_mem c hx))
      have hjoin : a ++ b = rest := takeChunk_join N rest c.NumIndices a b htc
      have hblen : b.length ≤ n := by
        have : a.length + b.length = rest.length := by
          rw [← List.length_append, hjoin]
        simp only [List.length_cons] at hlen
        omega
      have hbmem : ∀ x ∈ b, x.NumIndices ≤ N := by
        intro x hx
        refine h x (List.mem_cons_of_mem c ?_)
        rw [← hjoin]
        exact List.mem_append_right a hx
      obtain ⟨chs, hflush, hfl, hgr⟩ := ih b hblen hbmem
      refine ⟨(c :: a) :: chs, ?_, ?_, ?_⟩
      · simp only [flushLoop]
        rw [if_neg (by omega), htc]
        simp [hflush]
      · simp [hfl, hjoin]
      · refine ⟨by simp, ?_, ?_, hgr⟩
        · have := takeChunk_sum_le N rest c.NumIndices a b hc htc
          rw [sumIndices_cons]
          omega
        · intro c1 cs1 hb
          rw [hfl] at hb
          have := takeChunk_next_gt N rest c.NumIndices a b htc c1 cs1 hb
          rw [sumIndices_cons]
          omega

theorem flushLoop_oversize_none (N : Nat) :
    ∀ fuel cmds, (∃ c ∈ cmds, c.NumIndices > N) →
      flushLoop N fuel cmds = none := by
  intro fuel
  induction fuel with
  | zero =>
    intro cmds h
    match cmds with
    | [] => obtain ⟨c, hc, _⟩ := h; exact absurd hc (by simp)
    | c :: rest => rfl
  | succ n ih =>
    intro cmds h
    match cmds with
    | [] => obtain ⟨c, hc, _⟩ := h; exact absurd hc (by simp)
    | c :: rest =>
      obtain ⟨c0, hc0, hc0N⟩ := h
      by_cases hc : c.NumIndices > N
      · simp only [flushLoop]
        rw [if_pos hc]
      · simp only [flushLoop]
        rw [if_neg hc]
        have hc0rest : c0 ∈ rest := by
          rcases List.mem_cons.mp hc0 with h1 | h1
          · rw [h1] at hc0N; omega
          · exact h1
        match htc : takeChunk N c.NumIndices rest with
        | none => rfl
        | some (a, b) =>
          have hmem := takeChunk_oversize_mem N rest c.NumIndices a b htc c0 hc0rest hc0N
          simp [ih b ⟨c0, hmem, hc0N⟩]

theorem pow2Loop_ge (width : Nat) :
    ∀ fuel w, width ≤ 2 ^ fuel * w → width ≤ pow2Loop width fuel w := by
  intro fuel
  induction fuel with
  | zero => intro w h; simpa [pow2Loop] using h
  | succ n ih =>
    intro w h
    simp only [pow2Loop]
    split
    · exact ih (2 * w) (by rw [show 2 ^ n * (2 * w) = 2 ^ (n + 1) * w by ring]; exact h)
    · omega

theorem pow2Loop_pow (width : Nat) :
    ∀ fuel w, (∃ k, w = 2 ^ k) → ∃ k, pow2Loop width fuel w = 2 ^ k := by
  intro fuel
  induction fuel with
  | zero => intro w h; simpa [pow2Loop] using h
  | succ n ih =>
    intro w h
    obtain ⟨k, hk⟩ := h
    simp only [pow2Loop]
    split
    · exact ih (2 * w) ⟨k + 1, by rw [hk]; ring⟩
    · exact ⟨k, hk⟩

theorem pow2Loop_min (width : Nat) :
    ∀ fuel w, pow2Loop width fuel w = w ∨ pow2Loop width fuel w < 2 * width := by
  intro fuel
  induction fuel with
  | zero => intro w; exact Or.inl rfl
  | succ n ih =>
    intro w
    simp only [pow2Loop]
    split
    · next hlt =>
      rcases ih (2 * w) with h | h
      · right; rw [h]; omega
      · right; exact h
    · exact Or.inl rfl

theorem nextPowerOf2_spec (width : Nat) :
    ∃ k, nextPowerOf2 width = 2 ^ k ∧ width ≤ 2 ^ k ∧
      ∀ j, width ≤ 2 ^ j → 2 ^ k ≤ 2 ^ j := by
  have hge : width ≤ nextPowerOf2 width := by
    refine pow2Loop_ge width width 1 ?_
    have := Nat.lt_two_pow width
    omega
  obtain ⟨k, hk⟩ := pow2Loop_pow width width 1 ⟨0, rfl⟩
  refine ⟨k, hk, by rw [← hk]; exact hge, ?_⟩
  intro j hj
  rcases pow2Loop_min width width 1 with h1 | h1
  · have : (2 : Nat) ^ k = 1 := by rw [← hk]; exact h1
    rw [this]
    exact Nat.one_le_two_pow
  · have hlt : (2 : Nat) ^ k < 2 ^ (j + 1) := by
      rw [← hk]
      calc pow2Loop width width 1 < 2 * width := h1
        _ ≤ 2 * 2 ^ j := by omega
        _ = 2 ^ (j + 1) := by ring
    have hkj : k < j + 1 := (Nat.pow_lt_pow_iff_right (by norm_num)).mp hlt
    exact Nat.pow_le_pow_right (by norm_num) (by omega)

theorem doEnqueue_fields (N : Nat) (q : commandQueue) (dst src : ImageId)
    (nv ni : Nat) (color : ColorM) (mode : CompositeMode) (filter : Filter)
    (force : Bool) (h : ¬ni > N) :
    ∃ q2, doEnqueueDrawImageCommand N q dst src nv ni color mode filter force = some q2 ∧
      q2.vertices = q.vertices ∧ q2.indices = q.indices ∧ q2.nindices = q.nindices ∧
      q2.tmpNumIndices = q.tmpNumIndices ∧ q2.nextIndex = q.nextIndex := by
  simp only [doEnqueueDrawImageCommand]
  rw [if_neg h]
  rcases force
  · rcases q.commands.getLast? with _ | last
    · exact ⟨_, rfl, rfl, rfl, rfl, rfl, rfl⟩
    · dsimp only
      by_cases hm : last.CanMerge dst src color mode filter
      · rw [if_pos hm]
        exact ⟨_, rfl, rfl, rfl, rfl, rfl, rfl⟩
      · rw [if_neg hm]
        exact ⟨_, rfl, rfl, rfl, rfl, rfl, rfl⟩
  · exact ⟨_, rfl, rfl, rfl, rfl, rfl, rfl⟩

theorem partitionByDependency_go (live : List RestImage) :
    ∀ wd wod : List RestImage,
      live.foldl
        (fun acc img =>
          if img.hasDependency then (acc.1 ++ [img], acc.2)
          else (acc.1, acc.2 ++ [img]))
        (wd, wod) =
      (wd ++ live.filter (fun i => i.hasDependency),
       wod ++ live.filter (fun i => !i.hasDependency)) := by
  induction live with
  | nil => intro wd wod; simp
  | cons c rest ih =>
    intro wd wod
    simp only [List.foldl_cons, List.filter_cons]
    by_cases hc : c.hasDependency
    · simp [hc, ih]
    · simp [hc, ih]

theorem partitionByDependency_eq (live : List RestImage) :
    partitionByDependency live =
      (live.filter (fun i => i.hasDependency),
       live.filter (fun i => !i.hasDependency)) := by
  have := partitionByDependency_go live [] []
  simpa [partitionByDependency] using this

theorem runOps_disposed (img : EImage) (h : img.restorable = none) :
    ∀ ops, runOps img ops = some (img, []) := by
  intro ops
  induction ops with
  | nil => rfl
  | cons op rest ih =>
    have hstep : stepOp img op = some (img, []) := by
      cases op with
      | dispose => simp [stepOp, EImage.Dispose, h]
      | drawImage s => simp [stepOp, EImage.DrawImageEff, h]
      | replacePixels p => simp [stepOp, EImage.ReplacePixelsOp, h]
    simp [runOps, hstep, ih]

theorem enqueueCore_fields (N : Nat) (q : commandQueue) (dst src : ImageId)
    (verts : List ℚ) (idx : List Nat) (color : ColorM) (mode : CompositeMode)
    (filter : Filter) (force : Bool) (h : ¬idx.length > N) :
    ∃ q2, enqueueCore N q dst src verts idx color mode filter force = some q2 ∧
      q2.vertices = q.vertices ++ verts ∧
      q2.tmpNumIndices = q.tmpNumIndices + idx.length ∧
      q2.nextIndex = q.nextIndex + verts.length / VertexSizeInFloats ∧
      q2.nindices = q.nindices + idx.length := by
  simp only [enqueueCore, appendVertices, appendIndices]
  obtain ⟨q2, hq2, hv, hi, hn, ht, hx⟩ :=
    doEnqueue_fields N
      { q with
        vertices := q.vertices ++ verts,
        indices := q.indices ++
          idx.map (fun i => (i % 65536 + q.nextIndex % 65536 % 65536) % 65536),
        nindices := q.nindices + idx.length,
        nextIndex := q.nextIndex + verts.length / VertexSizeInFloats,
        tmpNumIndices := q.tmpNumIndices + idx.length }
      dst src verts.length idx.length color mode filter force h
  refine ⟨q2, ?_, ?_⟩
  · exact hq2
  · simp_all

theorem enqueueCore_commands (N : Nat) (q : commandQueue) (dst src : ImageId)
    (verts : List ℚ) (idx : List Nat) (color : ColorM) (mode : CompositeMode)
    (filter : Filter) (force : Bool) (q2 : commandQueue)
    (h : enqueueCore N q dst src verts idx color mode filter force = some q2) :
    doEnqueueDrawImageCommand N
      { q with
        vertices := q.vertices ++ verts,
        indices := q.indices ++
          idx.map (fun i => (i % 65536 + q.nextIndex % 65536 % 65536) % 65536),
        nindices := q.nindices + idx.length,
        nextIndex := q.nextIndex + verts.length / VertexSizeInFloats,
        tmpNumIndices := q.tmpNumIndices + idx.length }
      dst src verts.length idx.length color mode filter force = some q2 := by
  simpa [enqueueCore, appendVertices, appendIndices] using h

theorem doEnqueue_merge (N : Nat) (q : commandQueue) (dst src : ImageId)
    (nv ni : Nat) (color : ColorM) (mode : CompositeMode) (filter : Filter)
    (last : Cmd) (h : ¬ni > N) (hlast : q.commands.getLast? = some last)
    (hm : last.CanMerge dst src color mode filter = true) :
    doEnqueueDrawImageCommand N q dst src nv ni color mode filter false =
      some { q with commands :=
        q.commands.dropLast ++ [(last.AddNumVertices nv).AddNumIndices ni] } := by
  simp only [doEnqueueDrawImageCommand]
  rw [if_neg h, hlast]
  dsimp only
  rw [if_pos hm]

theorem doEnqueue_new (N : Nat) (q : commandQueue) (dst src : ImageId)
    (nv ni : Nat) (color : ColorM) (mode : CompositeMode) (filter : Filter)
    (force : Bool) (h : ¬ni > N)
    (hcase : force = true ∨ q.commands.getLast? = none ∨
      ∀ last, q.commands.getLast? = some last →
        last.CanMerge dst src color mode filter = false) :
    doEnqueueDrawImageCommand N q dst src nv ni color mode filter force =
      some { q with commands :=
        q.commands ++ [Cmd.drawImage dst src nv ni color mode filter] } := by
  simp only [doEnqueueDrawImageCommand]
  rw [if_neg h]
  rcases hcase with hf | hl | hm
  · rw [hf]
  · rcases force
    · rw [hl]
    · rfl
  · rcases force
    · rcases hl : q.commands.getLast? with _ | last
      · rfl
      · dsimp only
        rw [if_neg (by simp [hm last hl])]
    · rfl

theorem Enqueue_vertices_append (N : Nat) (q : commandQueue) (dst src : ImageId)
    (vs ovs : List ℚ) (idx : List Nat) (color : ColorM) (mode : CompositeMode)
    (filter : Filter) (hlen : ¬idx.length > N) (hovs : overwriteTint vs = some ovs) :
    ∃ q2, EnqueueDrawImageCommand N q dst src vs idx color mode filter = some q2 ∧
      q2.vertices = q.vertices ++ ovs := by
  simp only [EnqueueDrawImageCommand]
  rw [if_neg hlen, hovs]
  dsimp only
  by_cases hsplit : q.tmpNumIndices + idx.length > N
  · rw [if_pos hsplit]
    obtain ⟨q2, hq2, hv, _⟩ := enqueueCore_fields N
      { q with tmpNumIndices := 0, nextIndex := 0 }
      dst src ovs idx color mode filter true hlen
    exact ⟨q2, hq2, hv⟩
  · rw [if_neg hsplit]
    obtain ⟨q2, hq2, hv, _⟩ :=
      enqueueCore_fields N q dst src ovs idx color mode filter false hlen
    exact ⟨q2, hq2, hv⟩

/-! ### The claims -/

/-- C5: every degenerate source rectangle (`sx0 ≥ sx1`, or `sy0 ≥ sy1`,
or the whole rectangle at or beyond the positive bound, `sx1 ≤ 0` or
`sy1 ≤ 0`) makes the vertex builder produce no vertices, and the draw
operation is then a no-op: the command queue is returned unchanged (no
command enqueued) and no error or panic is raised. -/
theorem degenerate_rect_draw_noop (N : Nat) (q : commandQueue)
    (width height : Nat) (sx0 sy0 sx1 sy1 : Int) (tint : Option RGBA)
    (geo : ℚ → ℚ → ℚ × ℚ) (dst src : ImageId) (idx : List Nat)
    (color : ColorM) (mode : CompositeMode) (filter : Filter)
    (h : sx0 ≥ sx1 ∨ sy0 ≥ sy1 ∨ sx1 ≤ 0 ∨ sy1 ≤ 0) :
    vertices width height sx0 sy0 sx1 sy1 tint geo = [] ∧
    DrawImageOp N q width height sx0 sy0 sx1 sy1 tint geo dst src idx
      color mode filter = some q := by
  have hv : vertices width height sx0 sy0 sx1 sy1 tint geo = [] := by
    unfold vertices
    by_cases h1 : sx0 ≥ sx1 ∨ sy0 ≥ sy1
    · rw [if_pos h1]
    · have h2 : sx1 ≤ 0 ∨ sy1 ≤ 0 := by tauto
      rw [if_neg h1, if_pos h2]
  refine ⟨hv, ?_⟩
  simp [DrawImageOp, hv]

theorem degenerate_rect_draw_noop_witness :
    vertices 3 5 2 0 2 2 none (fun x y => (x, y)) = [] ∧
    DrawImageOp 6 emptyQueue 3 5 2 0 2 2 none (fun x y => (x, y)) 1 2
      [0, 1, 2, 1, 2, 3] 7 8 9 = some emptyQueue :=
  degenerate_rect_draw_noop 6 emptyQueue 3 5 2 0 2 2 none (fun x y => (x, y))
    1 2 [0, 1, 2, 1, 2, 3] 7 8 9 (Or.inl (by decide))

/-- C6: the restoration pass partitions the live images into those with
at least one history dependency and those with none, restores in an
order that is a permutation of the live set, and every dependency-free
image is restored strictly before any image that has a dependency. -/
theorem restore_dependency_free_first (live : List RestImage) :
    restoreOrder live =
      live.filter (fun i => !i.hasDependency) ++
        live.filter (fun i => i.hasDependency) ∧
    (restoreOrder live).Perm live ∧
    ∀ i j : Nat, i < (restoreOrder live).length → j < (restoreOrder live).length →
      ((restoreOrder live).getD i ⟨0, true⟩).hasDependency = false →
      ((restoreOrder live).getD j ⟨0, true⟩).hasDependency = true →
      i < j := by
  have heq : restoreOrder live =
      live.filter (fun i => !i.hasDependency) ++
        live.filter (fun i => i.hasDependency) := by
    simp [restoreOrder, partitionByDependency_eq]
  refine ⟨heq, ?_, ?_⟩
  · rw [heq]
    have := List.filter_append_perm (fun i : RestImage => !i.hasDependency) live
    simpa using this
  · intro i j hi hj hfi htj
    set A := live.filter (fun i => !i.hasDependency) with hA
    set B := live.filter (fun i => i.hasDependency) with hB
    have hmemA : ∀ x ∈ A, x.hasDependency = false := by
      intro x hx
      have := List.of_mem_filter hx
      simpa using this
    have hmemB : ∀ x ∈ B, x.hasDependency = true := by
      intro x hx
      have := List.of_mem_filter hx
      simpa using this
    rw [heq] at hi hj hfi htj
    have hjA : ¬j < A.length := by
      intro hjlt
      rw [List.getD_append _ _ _ _ hjlt] at htj
      have hmem : A.getD j ⟨0, true⟩ ∈ A := by
        rw [List.getD_eq_getElem _ _ hjlt]
        exact List.getElem_mem hjlt
      have := hmemA (A.getD j ⟨0, true⟩) hmem
      rw [this] at htj
      exact absurd htj (by simp)
    have hiA : i < A.length := by
      by_contra hilt
      push_neg at hilt
      rw [List.getD_append_right _ _ _ _ hilt] at hfi
      have hlt : i - A.length < B.length := by
        rw [List.length_append] at hi
        omega
      have hmem : B.getD (i - A.length) ⟨0, true⟩ ∈ B := by
        rw [List.getD_eq_getElem _ _ hlt]
        exact List.getElem_mem hlt
      have := hmemB (B.getD (i - A.length) ⟨0, true⟩) hmem
      rw [this] at hfi
      exact absurd hfi (by simp)
    omega

/-- C7: once an image is disposed, its GPU handle is released exactly
once, and any further sequence of Dispose, DrawImage and ReplacePixels
calls on it is a pure no-op (each returns nil, the state does not
change, no GPU effect is issued), while At answers the fully
transparent color. -/
theorem dispose_release_once_then_noop (img : EImage) (r : RState)
    (h : img.restorable = some r) (ops : List ImgOp) (f : RState → RGBA) :
    runOps img (ImgOp.dispose :: ops) = some (⟨none⟩, [GpuEff.release r.rid]) ∧
    releaseCount [GpuEff.release r.rid] = 1 ∧
    (∀ op, stepOp ⟨none⟩ op = some (⟨none⟩, [])) ∧
    EImage.AtColor ⟨none⟩ f = ⟨0, 0, 0, 0⟩ := by
  have hdisp : EImage.Dispose img = (⟨none⟩, [GpuEff.release r.rid]) := by
    simp [EImage.Dispose, h]
  refine ⟨?_, rfl, ?_, rfl⟩
  · have hrun := runOps_disposed ⟨none⟩ rfl ops
    simp [runOps, stepOp, hdisp, hrun]
  · intro op
    cases op with
    | dispose => simp [stepOp, EImage.Dispose]
    | drawImage s => simp [stepOp, EImage.DrawImageEff]
    | replacePixels p => simp [stepOp, EImage.ReplacePixelsOp]

theorem dispose_release_once_then_noop_witness :
    runOps ⟨some ⟨4, 3, 5⟩⟩
        [ImgOp.dispose, ImgOp.dispose, ImgOp.drawImage 9,
         ImgOp.replacePixels [1, 2, 3]] =
      some (⟨none⟩, [GpuEff.release 4]) ∧
    releaseCount [GpuEff.release 4] = 1 ∧
    (∀ op, stepOp ⟨none⟩ op = some (⟨none⟩, [])) ∧
    EImage.AtColor ⟨none⟩ (fun _ => ⟨9, 9, 9, 9⟩) = ⟨0, 0, 0, 0⟩ :=
  dispose_release_once_then_noop ⟨some ⟨4, 3, 5⟩⟩ ⟨4, 3, 5⟩ rfl
    [ImgOp.dispose, ImgOp.drawImage 9, ImgOp.replacePixels [1, 2, 3]]
    (fun _ => ⟨9, 9, 9, 9⟩)

/-- C8 (counterexample): the claim says a dependent-invalidation call
with a target different from the memo always performs a full rescan of
the live set.  Here the memo holds image 1 and the call's target is a
disposed image (its restorable field is nil, different from the memo),
yet the call visits 0 of the 1 live images: the memo is replaced and the
scan is skipped. -/
theorem memo_disposed_target_counterexample :
    (resetPixelsIfDependingOn
        ⟨[⟨2, none, [⟨3, [], 0, 0, 0, 0⟩], false⟩], some 1⟩ none).2 = 0 ∧
    (⟨[⟨2, none, [⟨3, [], 0, 0, 0, 0⟩], false⟩], some 1⟩ :
      imagesReg).images.length = 1 ∧
    (⟨[⟨2, none, [⟨3, [], 0, 0, 0, 0⟩], false⟩], some 1⟩ :
      imagesReg).lastChecked ≠ none := by
  refine ⟨rfl, rfl, by simp⟩

/-- C8 (amended): repeating a dependent-invalidation call against the
same target is equivalent to one call — the second call returns at once
via the memo, visiting no image — and the memo always ends up holding
the checked target; a call whose target differs from the memo performs a
full rescan of the live set provided the target is live (not disposed),
passing every live image through `makeStaleIfDependingOn`: an
already-stale image is left unchanged, a non-stale image depending on
the target goes stale (dropping its pixel cache and history), and a
non-stale image not depending on it is untouched. -/
theorem invalidation_memo_characterization (reg : imagesReg) (t : Option Nat) :
    resetPixelsIfDependingOn (resetPixelsIfDependingOn reg t).1 t =
      ((resetPixelsIfDependingOn reg t).1, 0) ∧
    (resetPixelsIfDependingOn reg t).1.lastChecked = t ∧
    (∀ u : Nat, reg.lastChecked ≠ some u →
      (resetPixelsIfDependingOn reg (some u)).2 = reg.images.length ∧
      (resetPixelsIfDependingOn reg (some u)).1.images =
        reg.images.map (fun img => img.makeStaleIfDependingOn u)) ∧
    (∀ (u : Nat) (img : RImage),
      (img.makeStaleIfDependingOn u).stale = (img.stale || img.dependsOn u) ∧
      (img.stale = true → img.makeStaleIfDependingOn u = img) ∧
      (img.stale = false → img.dependsOn u = true →
        img.makeStaleIfDependingOn u = img.makeStale) ∧
      (img.stale = false → img.dependsOn u = false →
        img.makeStaleIfDependingOn u = img)) := by
  have hmemo : (resetPixelsIfDependingOn reg t).1.lastChecked = t := by
    by_cases h : reg.lastChecked = t
    · simp [resetPixelsIfDependingOn, h]
    · rcases t with _ | u <;> simp [resetPixelsIfDependingOn, h]
  refine ⟨?_, hmemo, ?_, ?_⟩
  · set X := (resetPixelsIfDependingOn reg t).1 with hX
    simp [resetPixelsIfDependingOn, hmemo]
  · intro u hu
    simp [resetPixelsIfDependingOn, hu]
  · intro u img
    refine ⟨?_, ?_, ?_, ?_⟩
    · by_cases hs : img.stale
      · simp [RImage.makeStaleIfDependingOn, hs]
      · by_cases hd : img.dependsOn u
        · simp [RImage.makeStaleIfDependingOn, RImage.makeStale, hs, hd]
        · simp [RImage.makeStaleIfDependingOn, hs, hd]
    · intro hs
      simp [RImage.makeStaleIfDependingOn, hs]
    · intro hs hd
      simp [RImage.makeStaleIfDependingOn, hs, hd]
    · intro hs hd
      simp [RImage.makeStaleIfDependingOn, hs, hd]

/-- C9: for a non-degenerate source rectangle each of the four emitted
vertices carries texture coordinates equal to its corner of the
rectangle divided by the next power-of-two dimensions of the image (the
least powers of two at or above the logical width and height), and its
second texture-coordinate pair holds the UV of the diagonally opposite
corner.  The corners are emitted in the order (sx0,sy0), (sx1,sy0),
(sx0,sy1), (sx1,sy1), ten floats per vertex with the UV pairs at offsets
2–3 and 4–5. -/
theorem uv_normalized_by_next_pow2 (width height : Nat) (sx0 sy0 sx1 sy1 : Int)
    (tint : Option RGBA) (geo : ℚ → ℚ → ℚ × ℚ)
    (h1 : sx0 < sx1) (h2 : sy0 < sy1) (h3 : 0 < sx1) (h4 : 0 < sy1) :
    ∀ vs, vs = vertices width height sx0 sy0 sx1 sy1 tint geo →
    ∀ u0 v0 u1 v1 : ℚ,
      u0 = (sx0 : ℚ) / (nextPowerOf2 width : ℚ) →
      v0 = (sy0 : ℚ) / (nextPowerOf2 height : ℚ) →
      u1 = (sx1 : ℚ) / (nextPowerOf2 width : ℚ) →
      v1 = (sy1 : ℚ) / (nextPowerOf2 height : ℚ) →
      vs.length = 40 ∧
      (vs.getD 2 0 = u0 ∧ vs.getD 3 0 = v0 ∧ vs.getD 4 0 = u1 ∧ vs.getD 5 0 = v1) ∧
      (vs.getD 12 0 = u1 ∧ vs.getD 13 0 = v0 ∧ vs.getD 14 0 = u0 ∧ vs.getD 15 0 = v1) ∧
      (vs.getD 22 0 = u0 ∧ vs.getD 23 0 = v1 ∧ vs.getD 24 0 = u1 ∧ vs.getD 25 0 = v0) ∧
      (vs.getD 32 0 = u1 ∧ vs.getD 33 0 = v1 ∧ vs.getD 34 0 = u0 ∧ vs.getD 35 0 = v0) ∧
      (∃ k, nextPowerOf2 width = 2 ^ k ∧ width ≤ 2 ^ k ∧
        ∀ j, width ≤ 2 ^ j → 2 ^ k ≤ 2 ^ j) ∧
      (∃ k, nextPowerOf2 height = 2 ^ k ∧ height ≤ 2 ^ k ∧
        ∀ j, height ≤ 2 ^ j → 2 ^ k ≤ 2 ^ j) := by
  intro vs hvs u0 v0 u1 v1 hu0 hv0 hu1 hv1
  have hne1 : ¬(sx0 ≥ sx1 ∨ sy0 ≥ sy1) := by omega
  have hne2 : ¬(sx1 ≤ 0 ∨ sy1 ≤ 0) := by omega
  rw [vertices] at hvs
  rw [if_neg hne1, if_neg hne2] at hvs
  dsimp only at hvs
  subst hvs hu0 hv0 hu1 hv1
  refine ⟨by simp, ?_, ?_, ?_, ?_, nextPowerOf2_spec width, nextPowerOf2_spec height⟩
  all_goals simp [List.getD]

theorem uv_normalized_by_next_pow2_witness :
    (vertices 3 5 0 0 2 2 none (fun x y => (x, y))).length = 40 ∧
    ((vertices 3 5 0 0 2 2 none (fun x y => (x, y))).getD 2 0 =
        ((0 : Int) : ℚ) / (nextPowerOf2 3 : ℚ) ∧
      (vertices 3 5 0 0 2 2 none (fun x y => (x, y))).getD 3 0 =
        ((0 : Int) : ℚ) / (nextPowerOf2 5 : ℚ) ∧
      (vertices 3 5 0 0 2 2 none (fun x y => (x, y))).getD 4 0 =
        ((2 : Int) : ℚ) / (nextPowerOf2 3 : ℚ) ∧
      (vertices 3 5 0 0 2 2 none (fun x y => (x, y))).getD 5 0 =
        ((2 : Int) : ℚ) / (nextPowerOf2 5 : ℚ)) ∧
    ((vertices 3 5 0 0 2 2 none (fun x y => (x, y))).getD 12 0 =
        ((2 : Int) : ℚ) / (nextPowerOf2 3 : ℚ) ∧
      (vertices 3 5 0 0 2 2 none (fun x y => (x, y))).getD 13 0 =
        ((0 : Int) : ℚ) / (nextPowerOf2 5 : ℚ) ∧
      (vertices 3 5 0 0 2 2 none (fun x y => (x, y))).getD 14 0 =
        ((0 : Int) : ℚ) / (nextPowerOf2 3 : ℚ) ∧
      (vertices 3 5 0 0 2 2 none (fun x y => (x, y))).getD 15 0 =
        ((2 : Int) : ℚ) / (nextPowerOf2 5 : ℚ)) ∧
    ((vertices 3 5 0 0 2 2 none (fun x y => (x, y))).getD 22 0 =
        ((0 : Int) : ℚ) / (nextPowerOf2 3 : ℚ) ∧
      (vertices 3 5 0 0 2 2 none (fun x y => (x, y))).getD 23 0 =
        ((2 : Int) : ℚ) / (nextPowerOf2 5 : ℚ) ∧
      (vertices 3 5 0 0 2 2 none (fun x y => (x, y))).getD 24 0 =
        ((2 : Int) : ℚ) / (nextPowerOf2 3 : ℚ) ∧
      (vertices 3 5 0 0 2 2 none (fun x y => (x, y))).getD 25 0 =
        ((0 : Int) : ℚ) / (nextPowerOf2 5 : ℚ)) ∧
    ((vertices 3 5 0 0 2 2 none (fun x y => (x, y))).getD 32 0 =
        ((2 : Int) : ℚ) / (nextPowerOf2 3 : ℚ) ∧
      (vertices 3 5 0 0 2 2 none (fun x y => (x, y))).getD 33 0 =
        ((2 : Int) : ℚ) / (nextPowerOf2 5 : ℚ) ∧
      (vertices 3 5 0 0 2 2 none (fun x y => (x, y))).getD 34 0 =
        ((0 : Int) : ℚ) / (nextPowerOf2 3 : ℚ) ∧
      (vertices 3 5 0 0 2 2 none (fun x y => (x, y))).getD 35 0 =
        ((0 : Int) : ℚ) / (nextPowerOf2 5 : ℚ)) ∧
    (∃ k, nextPowerOf2 3 = 2 ^ k ∧ 3 ≤ 2 ^ k ∧ ∀ j, 3 ≤ 2 ^ j → 2 ^ k ≤ 2 ^ j) ∧
    (∃ k, nextPowerOf2 5 = 2 ^ k ∧ 5 ≤ 2 ^ k ∧ ∀ j, 5 ≤ 2 ^ j → 2 ^ k ≤ 2 ^ j) :=
  uv_normalized_by_next_pow2 3 5 0 0 2 2 none (fun x y => (x, y))
    (by decide) (by decide) (by decide) (by decide)
    (vertices 3 5 0 0 2 2 none (fun x y => (x, y))) rfl
    (((0 : Int) : ℚ) / (nextPowerOf2 3 : ℚ))
    (((0 : Int) : ℚ) / (nextPowerOf2 5 : ℚ))
    (((2 : Int) : ℚ) / (nextPowerOf2 3 : ℚ))
    (((2 : Int) : ℚ) / (nextPowerOf2 5 : ℚ))
    rfl rfl rfl rfl

theorem overwriteTint_vertices (width height : Nat) (sx0 sy0 sx1 sy1 : Int)
    (tint : Option RGBA) (geo : ℚ → ℚ → ℚ × ℚ) :
    overwriteTint (vertices width height sx0 sy0 sx1 sy1 tint geo) =
      some (vertices width height sx0 sy0 sx1 sy1 (some whiteRGBA) geo) := by
  unfold vertices
  by_cases h1 : sx0 ≥ sx1 ∨ sy0 ≥ sy1
  · rw [if_pos h1, if_pos h1]; rfl
  · by_cases h2 : sx1 ≤ 0 ∨ sy1 ≤ 0
    · rw [if_neg h1, if_pos h2, if_neg h1, if_pos h2]; rfl
    · rw [if_neg h1, if_neg h2, if_neg h1, if_neg h2]
      dsimp only
      simp only [overwriteTint, Option.map_some', Option.some.injEq, whiteRGBA]
      norm_num

/-- C3: before the vertex data reaches the queue,
`EnqueueDrawImageCommand` overwrites every vertex's floats from index 6
to the end of the vertex with 1.0, so the data appended to the queue's
vertex backing store equals what the vertex builder would have produced
with the opaque-white tint, regardless of the tint the builder was
actually given. -/
theorem enqueue_stores_opaque_white_tint (N : Nat) (q : commandQueue)
    (dst src : ImageId) (width height : Nat) (sx0 sy0 sx1 sy1 : Int)
    (tint : Option RGBA) (geo : ℚ → ℚ → ℚ × ℚ) (idx : List Nat)
    (color : ColorM) (mode : CompositeMode) (filter : Filter)
    (hlen : ¬idx.length > N) :
    overwriteTint (vertices width height sx0 sy0 sx1 sy1 tint geo) =
      some (vertices width height sx0 sy0 sx1 sy1 (some whiteRGBA) geo) ∧
    ∃ q2, EnqueueDrawImageCommand N q dst src
        (vertices width height sx0 sy0 sx1 sy1 tint geo) idx color mode filter =
        some q2 ∧
      q2.vertices = q.vertices ++ vertices width height sx0 sy0 sx1 sy1
        (some whiteRGBA) geo := by
  refine ⟨overwriteTint_vertices width height sx0 sy0 sx1 sy1 tint geo, ?_⟩
  exact Enqueue_vertices_append N q dst src _ _ idx color mode filter hlen
    (overwriteTint_vertices width height sx0 sy0 sx1 sy1 tint geo)

theorem enqueue_stores_opaque_white_tint_witness :
    overwriteTint (vertices 3 5 0 0 2 2 (some ⟨10, 20, 30, 40⟩) (fun x y => (x, y))) =
      some (vertices 3 5 0 0 2 2 (some whiteRGBA) (fun x y => (x, y))) ∧
    ∃ q2, EnqueueDrawImageCommand 100 emptyQueue 1 2
        (vertices 3 5 0 0 2 2 (some ⟨10, 20, 30, 40⟩) (fun x y => (x, y)))
        [0, 1, 2, 1, 2, 3] 7 8 9 = some q2 ∧
      q2.vertices = emptyQueue.vertices ++
        vertices 3 5 0 0 2 2 (some whiteRGBA) (fun x y => (x, y)) :=
  enqueue_stores_opaque_white_tint 100 emptyQueue 1 2 3 5 0 0 2 2
    (some ⟨10, 20, 30, 40⟩) (fun x y => (x, y)) [0, 1, 2, 1, 2, 3] 7 8 9
    (by decide)

/-- C1: when every individual queued command's index count is at most
the hardware limit `N`, `Flush` succeeds and partitions the queued
commands into consecutive chunks — each the longest prefix of the
remaining commands whose cumulative index count fits within `N` — so no
executed chunk's index count exceeds `N` and the total index count
executed across all chunks equals the total index count enqueued. -/
theorem flush_buffer_partition (N : Nat) (q : commandQueue)
    (h : ∀ c ∈ q.commands, c.NumIndices ≤ N) :
    ∃ chs, Flush N q = some chs ∧
      chs.flatten = q.commands ∧
      IsGreedy N chs ∧
      (∀ ch ∈ chs, sumIndices ch ≤ N) ∧
      (chs.map sumIndices).sum = sumIndices q.commands := by
  obtain ⟨chs, hf, hfl, hgr⟩ :=
    flushLoop_spec N q.commands.length q.commands le_rfl h
  refine ⟨chs, hf, hfl, hgr, IsGreedy_sum_le N chs hgr, ?_⟩
  rw [← hfl, sumIndices_flatten]

theorem flush_buffer_partition_witness :
    ∃ chs, Flush 6 { emptyQueue with commands :=
        [Cmd.drawImage 1 2 4 6 7 8 9, Cmd.drawImage 1 3 4 6 7 8 9,
         Cmd.dispose 5] } = some chs ∧
      chs.flatten = [Cmd.drawImage 1 2 4 6 7 8 9, Cmd.drawImage 1 3 4 6 7 8 9,
        Cmd.dispose 5] ∧
      IsGreedy 6 chs ∧
      (∀ ch ∈ chs, sumIndices ch ≤ 6) ∧
      (chs.map sumIndices).sum = sumIndices [Cmd.drawImage 1 2 4 6 7 8 9,
        Cmd.drawImage 1 3 4 6 7 8 9, Cmd.dispose 5] :=
  flush_buffer_partition 6
    { emptyQueue with commands :=
        [Cmd.drawImage 1 2 4 6 7 8 9, Cmd.drawImage 1 3 4 6 7 8 9,
         Cmd.dispose 5] }
    (by decide)

/-- C10: a single command whose index count alone exceeds the hardware
limit `N` is a panic, both on enqueue (in `doEnqueueDrawImageCommand`
and `EnqueueDrawImageCommand`) and in the flush loop; and under the
precondition that every command's index count is at most `N`, both panic
branches are unreachable: enqueuing succeeds and `Flush` succeeds. -/
theorem oversized_command_panics (N : Nat) :
    (∀ (q : commandQueue) (dst src : ImageId) (nv ni : Nat) (color : ColorM)
        (mode : CompositeMode) (filter : Filter) (force : Bool), ni > N →
      doEnqueueDrawImageCommand N q dst src nv ni color mode filter force = none) ∧
    (∀ (q : commandQueue) (dst src : ImageId) (vs : List ℚ) (idx : List Nat)
        (color : ColorM) (mode : CompositeMode) (filter : Filter),
      idx.length > N →
      EnqueueDrawImageCommand N q dst src vs idx color mode filter = none) ∧
    (∀ q : commandQueue, (∃ c ∈ q.commands, c.NumIndices > N) →
      Flush N q = none) ∧
    (∀ (q : commandQueue) (dst src : ImageId) (nv ni : Nat) (color : ColorM)
        (mode : CompositeMode) (filter : Filter) (force : Bool), ¬ni > N →
      ∃ q2, doEnqueueDrawImageCommand N q dst src nv ni color mode filter force =
        some q2) ∧
    (∀ q : commandQueue, (∀ c ∈ q.commands, c.NumIndices ≤ N) →
      ∃ chs, Flush N q = some chs) := by
  refine ⟨?_, ?_, ?_, ?_, ?_⟩
  · intro q dst src nv ni color mode filter force hni
    simp only [doEnqueueDrawImageCommand]
    rw [if_pos hni]
  · intro q dst src vs idx color mode filter hlen
    simp only [EnqueueDrawImageCommand]
    rw [if_pos hlen]
  · intro q h
    exact flushLoop_oversize_none N q.commands.length q.commands h
  · intro q dst src nv ni color mode filter force hni
    obtain ⟨q2, hq2, _⟩ :=
      doEnqueue_fields N q dst src nv ni color mode filter force hni
    exact ⟨q2, hq2⟩
  · intro q h
    obtain ⟨chs, hf, _⟩ :=
      flushLoop_spec N q.commands.length q.commands le_rfl h
    exact ⟨chs, hf⟩

/-- C2 (counterexample): two successive draws identical in target image,
source image, color transform, blend mode and filter but with two
value-distinct tints (a fortiori two distinct tint pointers) are merged
into a single queued command carrying the summed counts — so tint
identity is not part of the merge condition, contrary to the claim. -/
theorem merge_ignores_tint_counterexample :
    ((EnqueueDrawImageCommand 100 emptyQueue 1 2
        (vertices 3 5 0 0 2 2 (some ⟨10, 20, 30, 40⟩) (fun x y => (x, y)))
        [0, 1, 2, 1, 2, 3] 7 8 9).bind (fun q1 =>
      EnqueueDrawImageCommand 100 q1 1 2
        (vertices 3 5 0 0 2 2 (some ⟨0, 0, 0, 0⟩) (fun x y => (x, y)))
        [0, 1, 2, 1, 2, 3] 7 8 9)).map (fun q2 => q2.commands) =
      some [Cmd.drawImage 1 2 80 12 7 8 9] ∧
    (⟨10, 20, 30, 40⟩ : RGBA) ≠ ⟨0, 0, 0, 0⟩ :=
  ⟨rfl, by decide⟩

/-- C2 (amended): a newly enqueued draw command is merged into the
immediately preceding queued command iff no buffer-boundary split forced
a new command, a preceding command exists, and its merge test accepts
the draw; that test holds iff the preceding command is a draw command
whose target image, source image, color transform (value equality),
blend mode and filter mode are all identical — the tint takes no part in
the decision (the vertex tint channels are overwritten with 1.0 on
enqueue).  Merging only increases the previous command's vertex and
index counts by the new command's counts; in every other case a fresh
command with the new counts is appended. -/
theorem merge_condition_characterization (N : Nat) (q : commandQueue)
    (dst src : ImageId) (vs ovs : List ℚ) (idx : List Nat) (color : ColorM)
    (mode : CompositeMode) (filter : Filter)
    (hlen : ¬idx.length > N) (hovs : overwriteTint vs = some ovs) :
    (∀ d2 s2 nv2 ni2 col2 m2 f2,
      (Cmd.drawImage d2 s2 nv2 ni2 col2 m2 f2).CanMerge dst src color mode
          filter = true ↔
        (d2 = dst ∧ s2 = src ∧ col2 = color ∧ m2 = mode ∧ f2 = filter)) ∧
    (∀ c2, c2.CanMerge dst src color mode filter = true →
      ∃ d2 s2 nv2 ni2 col2 m2 f2, c2 = Cmd.drawImage d2 s2 nv2 ni2 col2 m2 f2) ∧
    (∀ last, ¬(q.tmpNumIndices + idx.length > N) →
      q.commands.getLast? = some last →
      last.CanMerge dst src color mode filter = true →
      ∃ q2, EnqueueDrawImageCommand N q dst src vs idx color mode filter =
          some q2 ∧
        q2.commands = q.commands.dropLast ++
          [(last.AddNumVertices vs.length).AddNumIndices idx.length]) ∧
    (((q.tmpNumIndices + idx.length > N) ∨ q.commands.getLast? = none ∨
      (∀ last, q.commands.getLast? = some last →
        last.CanMerge dst src color mode filter = false)) →
      ∃ q2, EnqueueDrawImageCommand N q dst src vs idx color mode filter =
          some q2 ∧
        q2.commands = q.commands ++
          [Cmd.drawImage dst src vs.length idx.length color mode filter]) := by
  have hl := overwriteTint_length vs ovs hovs
  refine ⟨?_, ?_, ?_, ?_⟩
  · intro d2 s2 nv2 ni2 col2 m2 f2
    simp only [Cmd.CanMerge]
    constructor
    · intro h
      by_cases h1 : d2 = dst <;> by_cases h2 : s2 = src <;>
        by_cases h3 : col2 = color <;> by_cases h4 : m2 = mode <;>
        by_cases h5 : f2 = filter <;> simp_all
    · rintro ⟨rfl, rfl, rfl, rfl, rfl⟩
      simp
  · intro c2 h
    cases c2 with
    | drawImage d2 s2 nv2 ni2 col2 m2 f2 =>
      exact ⟨d2, s2, nv2, ni2, col2, m2, f2, rfl⟩
    | replacePixels d => simp [Cmd.CanMerge] at h
    | dispose t => simp [Cmd.CanMerge] at h
    | newImage w h2 => simp [Cmd.CanMerge] at h
    | newScreenFramebufferImage w h2 => simp [Cmd.CanMerge] at h
  · intro last hsplit hlast hm
    simp only [EnqueueDrawImageCommand]
    rw [if_neg hlen, hovs]
    dsimp only
    rw [if_neg hsplit]
    simp only [enqueueCore, appendVertices, appendIndices]
    exact ⟨_, doEnqueue_merge N _ dst src ovs.length idx.length color mode
      filter last hlen hlast hm, by simp [hl]⟩
  · intro hcase
    simp only [EnqueueDrawImageCommand]
    rw [if_neg hlen, hovs]
    dsimp only
    rcases hcase with hsplit | hrest
    · rw [if_pos hsplit]
      simp only [enqueueCore, appendVertices, appendIndices]
      exact ⟨_, doEnqueue_new N _ dst src ovs.length idx.length color mode
        filter true hlen (Or.inl rfl), by simp [hl]⟩
    · by_cases hsplit : q.tmpNumIndices + idx.length > N
      · rw [if_pos hsplit]
        simp only [enqueueCore, appendVertices, appendIndices]
        exact ⟨_, doEnqueue_new N _ dst src ovs.length idx.length color mode
          filter true hlen (Or.inl rfl), by simp [hl]⟩
      · rw [if_neg hsplit]
        simp only [enqueueCore, appendVertices, appendIndices]
        exact ⟨_, doEnqueue_new N _ dst src ovs.length idx.length color mode
          filter false hlen (by
            rcases hrest with h1 | h1
            · exact Or.inr (Or.inl h1)
            · exact Or.inr (Or.inr h1)), by simp [hl]⟩

theorem merge_condition_characterization_witness :
    (∀ d2 s2 nv2 ni2 col2 m2 f2,
      (Cmd.drawImage d2 s2 nv2 ni2 col2 m2 f2).CanMerge 1 2 7 8 9 = true ↔
        (d2 = 1 ∧ s2 = 2 ∧ col2 = 7 ∧ m2 = 8 ∧ f2 = 9)) ∧
    (∀ c2, c2.CanMerge 1 2 7 8 9 = true →
      ∃ d2 s2 nv2 ni2 col2 m2 f2, c2 = Cmd.drawImage d2 s2 nv2 ni2 col2 m2 f2) ∧
    (∀ last, ¬((emptyQueue.tmpNumIndices + [0, 1, 2, 1, 2, 3].length > 100)) →
      emptyQueue.commands.getLast? = some last →
      last.CanMerge 1 2 7 8 9 = true →
      ∃ q2, EnqueueDrawImageCommand 100 emptyQueue 1 2 (List.replicate 40 0)
          [0, 1, 2, 1, 2, 3] 7 8 9 = some q2 ∧
        q2.commands = emptyQueue.commands.dropLast ++
          [(last.AddNumVertices (List.replicate 40 (0 : ℚ)).length).AddNumIndices
            [0, 1, 2, 1, 2, 3].length]) ∧
    (((emptyQueue.tmpNumIndices + [0, 1, 2, 1, 2, 3].length > 100) ∨
      emptyQueue.commands.getLast? = none ∨
      (∀ last, emptyQueue.commands.getLast? = some last →
        last.CanMerge 1 2 7 8 9 = false)) →
      ∃ q2, EnqueueDrawImageCommand 100 emptyQueue 1 2 (List.replicate 40 0)
          [0, 1, 2, 1, 2, 3] 7 8 9 = some q2 ∧
        q2.commands = emptyQueue.commands ++
          [Cmd.drawImage 1 2 (List.replicate 40 (0 : ℚ)).length
            [0, 1, 2, 1, 2, 3].length 7 8 9]) :=
  merge_condition_characterization 100 emptyQueue 1 2 (List.replicate 40 0)
    (List.replicate 6 0 ++ List.replicate 4 1 ++ (List.replicate 6 0 ++
      List.replicate 4 1 ++ (List.replicate 6 0 ++ List.replicate 4 1 ++
        (List.replicate 6 0 ++ List.replicate 4 1))))
    [0, 1, 2, 1, 2, 3] 7 8 9 (by decide) (by rfl)

theorem enqueue_first_cmd (N : Nat) (dst src : ImageId) (vs ovs : List ℚ)
    (idx : List Nat) (color : ColorM) (mode : CompositeMode) (filter : Filter)
    (hovs : overwriteTint vs = some ovs) (hlen : ¬idx.length > N)
    (q : commandQueue) (hq : q.commands = []) (ht : q.tmpNumIndices = 0) :
    ∃ q2, EnqueueDrawImageCommand N q dst src vs idx color mode filter = some q2 ∧
      q2.commands = [Cmd.drawImage dst src vs.length idx.length color mode filter] ∧
      q2.tmpNumIndices = idx.length := by
  have hl := overwriteTint_length vs ovs hovs
  simp only [EnqueueDrawImageCommand]
  rw [if_neg hlen, hovs]
  dsimp only
  rw [if_neg (by omega)]
  simp only [enqueueCore, appendVertices, appendIndices]
  refine ⟨_, doEnqueue_new N _ dst src ovs.length idx.length color mode filter
    false hlen (Or.inr (Or.inl (by simp [hq]))), ?_, ?_⟩
  · simp [hq, hl]
  · simp [ht]

theorem enqueue_merge_step (N : Nat) (dst src : ImageId) (vs ovs : List ℚ)
    (idx : List Nat) (color : ColorM) (mode : CompositeMode) (filter : Filter)
    (hovs : overwriteTint vs = some ovs) (k : Nat)
    (hk : (k + 1) * idx.length ≤ N) (q : commandQueue)
    (hq : q.commands =
      [Cmd.drawImage dst src (k * vs.length) (k * idx.length) color mode filter])
    (ht : q.tmpNumIndices = k * idx.length) :
    ∃ q2, EnqueueDrawImageCommand N q dst src vs idx color mode filter = some q2 ∧
      q2.commands = [Cmd.drawImage dst src ((k + 1) * vs.length)
        ((k + 1) * idx.length) color mode filter] ∧
      q2.tmpNumIndices = (k + 1) * idx.length := by
  have hl := overwriteTint_length vs ovs hovs
  have hlen : ¬idx.length > N := by
    have : idx.length ≤ (k + 1) * idx.length := Nat.le_mul_of_pos_left _ (by omega)
    omega
  have hsplitneg : ¬(q.tmpNumIndices + idx.length > N) := by
    rw [ht]
    have harith : k * idx.length + idx.length = (k + 1) * idx.length := by ring
    omega
  simp only [EnqueueDrawImageCommand]
  rw [if_neg hlen, hovs]
  dsimp only
  rw [if_neg hsplitneg]
  simp only [enqueueCore, appendVertices, appendIndices]
  refine ⟨_, doEnqueue_merge N _ dst src ovs.length idx.length color mode filter
    (Cmd.drawImage dst src (k * vs.length) (k * idx.length) color mode filter)
    hlen (by simp [hq]) (by simp [Cmd.CanMerge]), ?_, ?_⟩
  · simp only [hq, Cmd.AddNumVertices, Cmd.AddNumIndices, List.dropLast_single]
    simp only [List.nil_append, List.cons.injEq, and_true]
    congr 1 <;> [skip; skip] <;> first
      | (rw [hl]; ring)
      | ring
  · simp only [ht]
    ring

/-- C4 (counterexample): with a hardware index-buffer limit of 6, two
immediately successive draws of the same (target, source, color
transform, tint, blend mode, filter) tuple — each a quad of six indices
— leave TWO queued commands, not one: the second draw overflows the
pending index count, forcing a buffer-boundary split that suppresses the
merge.  So immediate succession alone does not guarantee a single queued
command. -/
theorem repeated_draw_split_counterexample :
    (enqueueRep 6 1 2 (List.replicate 40 (0 : ℚ)) [0, 1, 2, 1, 2, 3] 7 8 9 2
        emptyQueue).map (fun q => q.commands) =
      some [Cmd.drawImage 1 2 40 6 7 8 9, Cmd.drawImage 1 2 40 6 7 8 9] :=
  rfl

/-- C4 (amended): drawing the same (target, source, colorTransform,
tint, blendMode, filterMode) tuple N times in immediate succession on an
initially empty queue produces exactly one queued command whose vertex
and index counts are the sums of the counts of the N individual calls,
provided the total index count of the N calls stays within the hardware
buffer limit (otherwise a buffer-boundary split produces several
commands). -/
theorem repeated_identical_draw_merges (N : Nat) (dst src : ImageId)
    (vs ovs : List ℚ) (idx : List Nat) (color : ColorM) (mode : CompositeMode)
    (filter : Filter) (n : Nat) (hovs : overwriteTint vs = some ovs)
    (hn : 1 ≤ n) (htot : n * idx.length ≤ N) :
    ∃ q, enqueueRep N dst src vs idx color mode filter n emptyQueue = some q ∧
      q.commands =
        [Cmd.drawImage dst src (n * vs.length) (n * idx.length) color mode filter] := by
  have aux : ∀ j k q, 1 ≤ k → (k + j) * idx.length ≤ N →
      q.commands =
        [Cmd.drawImage dst src (k * vs.length) (k * idx.length) color mode filter] →
      q.tmpNumIndices = k * idx.length →
      ∃ q2, enqueueRep N dst src vs idx color mode filter j q = some q2 ∧
        q2.commands = [Cmd.drawImage dst src ((k + j) * vs.length)
          ((k + j) * idx.length) color mode filter] := by
    intro j
    induction j with
    | zero =>
      intro k q hk htot2 hq ht
      exact ⟨q, rfl, by simpa using hq⟩
    | succ m ih =>
      intro k q hk htot2 hq ht
      have hk1 : (k + 1) * idx.length ≤ N := by
        have h1 : (k + 1) * idx.length ≤ (k + (m + 1)) * idx.length :=
          Nat.mul_le_mul_right _ (by omega)
        omega
      obtain ⟨q1, hq1, hc1, ht1⟩ := enqueue_merge_step N dst src vs ovs idx
        color mode filter hovs k hk1 q hq ht
      simp only [enqueueRep, hq1]
      have harith : k + 1 + m = k + (m + 1) := by omega
      obtain ⟨q2, hq2, hc2⟩ := ih (k + 1) q1 (by omega)
        (by rw [harith]; exact htot2) hc1 ht1
      rw [harith] at hc2
      exact ⟨q2, hq2, hc2⟩
  match n, hn with
  | m + 1, _ =>
    have hlen : ¬idx.length > N := by
      have : idx.length ≤ (m + 1) * idx.length := Nat.le_mul_of_pos_left _ (by omega)
      omega
    obtain ⟨q1, hq1, hc1, ht1⟩ := enqueue_first_cmd N dst src vs ovs idx color
      mode filter hovs hlen emptyQueue rfl rfl
    simp only [enqueueRep, hq1]
    have harith : 1 + m = m + 1 := by omega
    obtain ⟨q2, hq2, hc2⟩ := aux m 1 q1 le_rfl
      (by rw [harith]; exact htot) (by simpa using hc1) (by simpa using ht1)
    rw [harith] at hc2
    exact ⟨q2, hq2, hc2⟩

theorem repeated_identical_draw_merges_witness :
    ∃ q, enqueueRep 100 1 2 (List.replicate 40 (0 : ℚ)) [0, 1, 2, 1, 2, 3]
        7 8 9 3 emptyQueue = some q ∧
      q.commands = [Cmd.drawImage 1 2 (3 * (List.replicate 40 (0 : ℚ)).length)
        (3 * [0, 1, 2, 1, 2, 3].length) 7 8 9] :=
  repeated_identical_draw_merges 100 1 2 (List.replicate 40 (0 : ℚ))
    (List.replicate 6 0 ++ List.replicate 4 1 ++ (List.replicate 6 0 ++
      List.replicate 4 1 ++ (List.replicate 6 0 ++ List.replicate 4 1 ++
        (List.replicate 6 0 ++ List.replicate 4 1))))
    [0, 1, 2, 1, 2, 3] 7 8 9 3 (by rfl) (by decide) (by decide)

end Ebiten


